import Mathlib

/-!
Verification of the groupie-tracker match cache and query layer.

The Go source (`main.go`, package controller) is shallowly embedded below:
Go strings are lists of characters, the package-level cache variables
(`cachedAt`, `cachedMatch`) become an explicit `CacheState` threaded through
`fetchMatches`, the upstream HTTP+JSON step becomes an `Except` input, and
Go slices are Lean lists (plus, for the aliasing claim, an explicit
address/store model of slice cells).
-/

namespace GroupieTracker

/-- Go strings, modelled as lists of characters. -/
abbrev Str := List Char

/-- `strings.ToLower`, modelled characterwise (ASCII-adequate case folding). -/
def toLower (s : Str) : Str := s.map Char.toLower

/-- `strings.TrimSpace`: drop leading and trailing whitespace. -/
def trim (s : Str) : Str :=
  ((s.dropWhile Char.isWhitespace).reverse.dropWhile Char.isWhitespace).reverse

/-- `strings.Contains s sub`: does `sub` occur as a contiguous substring of `s`? -/
def goContains : Str → Str → Bool
  | [], sub => sub.isEmpty
  | c :: rest, sub => sub.isPrefixOf (c :: rest) || goContains rest sub

/-- Accumulator worker for `fields` (current word is held reversed in `acc`). -/
def fieldsAux : Str → Str → List Str
  | acc, [] => if acc.isEmpty then [] else [acc.reverse]
  | acc, c :: rest =>
    if c.isWhitespace then
      if acc.isEmpty then fieldsAux [] rest
      else acc.reverse :: fieldsAux [] rest
    else fieldsAux (c :: acc) rest

/-- `strings.Fields`: split around runs of whitespace, dropping empty pieces. -/
def fields (s : Str) : List Str := fieldsAux [] s

/-- `strings.Join parts sep`. -/
def joinStrs (sep : Str) : List Str → Str
  | [] => []
  | [x] => x
  | x :: y :: xs => x ++ sep ++ joinStrs sep (y :: xs)

/-- `strings.Split v (String.singleton sep)`: split on every occurrence of `sep`. -/
def splitOnChar (sep : Char) : Str → List Str
  | [] => [[]]
  | c :: rest =>
    if c = sep then [] :: splitOnChar sep rest
    else
      match splitOnChar sep rest with
      | [] => [[c]]
      | p :: ps => (c :: p) :: ps

/-- Go `<` on strings: lexicographic order on the character sequence. -/
def strLt : Str → Str → Bool
  | [], [] => false
  | [], _ :: _ => true
  | _ :: _, [] => false
  | a :: as, b :: bs =>
    if a < b then true
    else if a = b then strLt as bs
    else false

/-- One entry of a match's `videos` array. -/
structure Video where
  title : Str := []
  embed : Str := []
deriving DecidableEq, Repr

/-- The `Match` record from `main.go` (JSON fields plus derived fields). -/
structure MatchRec where
  Title : Str := []
  Competition : Str := []
  MatchviewURL : Str := []
  Thumbnail : Str := []
  DateRaw : Str := []
  Videos : List Video := []
  PrettyDate : Str := []
  EmbedHTML : Str := []
  IsFavorite : Bool := false
  Category : Str := []
deriving DecidableEq, Repr

/-- Errors of the upstream fetch+decode step (`httpClient.Get` / JSON decode). -/
inductive GoError where
  | upstreamUnreachable
  | upstreamMalformed
deriving DecidableEq, Repr

/-- One record's step of `normalizeMatches`.  The standard-library RFC3339
parse/format (`time.Parse`/`Format`) is abstracted by the parameter `df`:
`df raw = some pretty` when parsing succeeds, `none` on parse failure, in which
case `PrettyDate` is left equal to the raw string.  `Category` is
`strings.TrimSpace (strings.ToLower parts[0])` where
`parts := strings.SplitN Competition ":" 2`, whose first element is the part
of the string before the first ':' (the whole string when there is no ':'). -/
def normalizeOne (df : Str → Option Str) (m : MatchRec) : MatchRec :=
  let pretty :=
    match df m.DateRaw with
    | some f => f
    | none => m.DateRaw
  { m with
    PrettyDate := pretty
    Category := trim (toLower (m.Competition.takeWhile fun c => c != ':')) }

/-- Insert one record into a list sorted descending by `DateRaw`. -/
def insertByDateDesc (m : MatchRec) : List MatchRec → List MatchRec
  | [] => [m]
  | x :: xs => if strLt x.DateRaw m.DateRaw then m :: x :: xs else x :: insertByDateDesc m xs

/-- The `sort.Slice` call of `normalizeMatches`: sort descending by the raw
date string (modelled as insertion sort; the Go sort is unstable, any
descending sort is a faithful model for the properties considered here). -/
def sortByDateDesc : List MatchRec → List MatchRec
  | [] => []
  | m :: ms => insertByDateDesc m (sortByDateDesc ms)

/-- `normalizeMatches`: derive display fields on every record, then establish
the canonical descending-by-raw-date order. -/
def normalizeMatches (df : Str → Option Str) (ms : List MatchRec) : List MatchRec :=
  sortByDateDesc (ms.map (normalizeOne df))

/-- `cloneMatches`: `make` + `copy` produces a fresh slice holding the same
values (value-level model; the cell-level model is `cloneSlice` below). -/
def cloneMatches (src : List MatchRec) : List MatchRec :=
  List.ofFn fun i : Fin src.length => src.get i

/-- The package-level cache variables `cachedAt` / `cachedMatch`. -/
structure CacheState where
  cachedAt : Int
  cachedMatch : List MatchRec
deriving DecidableEq, Repr

/-- `cacheTTL = 2 * time.Minute`, in seconds. -/
def cacheTTL : Int := 120

deriving instance DecidableEq for Except

/-- Outcome of one `fetchMatches` call: the returned value, the cache state
after the call, and whether an upstream HTTP request was issued. -/
structure FetchResult where
  result : Except GoError (List MatchRec)
  state : CacheState
  upstreamCalled : Bool
deriving DecidableEq, Repr

/-- `fetchMatches` (the body runs under `cacheMu`, so one call is atomic).
`now` is the current time, `upstream` the outcome the network+decode step
would produce if consulted.  Fresh means `time.Since(cachedAt) < cacheTTL`
and `len(cachedMatch) > 0`. -/
def fetchMatches (df : Str → Option Str) (now : Int)
    (upstream : Except GoError (List MatchRec)) (st : CacheState) : FetchResult :=
  if now - st.cachedAt < cacheTTL ∧ st.cachedMatch ≠ [] then
    ⟨.ok (cloneMatches st.cachedMatch), st, false⟩
  else
    match upstream with
    | .error e => ⟨.error e, st, true⟩
    | .ok resp =>
      let ms := normalizeMatches df resp
      ⟨.ok (cloneMatches ms), ⟨now, ms⟩, true⟩

/-- A sequence of `fetchMatches` calls (time and would-be upstream outcome for
each), serialized as `cacheMu` serializes them; returns every call's result,
the final cache state, and how many upstream requests were issued. -/
def runFetches (df : Str → Option Str) :
    List (Int × Except GoError (List MatchRec)) → CacheState →
      List (Except GoError (List MatchRec)) × CacheState × Nat
  | [], st => ([], st, 0)
  | (t, up) :: rest, st =>
    let r := fetchMatches df t up st
    let o := runFetches df rest r.state
    (r.result :: o.1, o.2.1, o.2.2 + if r.upstreamCalled then 1 else 0)

/-- The loop body of `filterMatches` (both `continue` branches). -/
def filterLoop (q c : Str) : List MatchRec → List MatchRec
  | [] => []
  | m :: rest =>
    if !q.isEmpty && !goContains (toLower m.Title) q &&
        !goContains (toLower m.Competition) q then
      filterLoop q c rest
    else if !c.isEmpty && !m.Category.isEmpty && !goContains m.Category c then
      filterLoop q c rest
    else m :: filterLoop q c rest

/-- `filterMatches`: early return when both filters are empty, otherwise the
loop over records with the lowercased query and category. -/
def filterMatches (ms : List MatchRec) (query category : Str) : List MatchRec :=
  if query.isEmpty && category.isEmpty then ms
  else filterLoop (toLower query) (toLower category) ms

/-- `pageSize = 9`. -/
def pageSize : Int := 9

/-- `paginate matches page size`: returns the page slice, `totalPages`,
`prevPage`, `nextPage`.  Transcribed clamp by clamp from the Go source;
`matches[start:end]` becomes take/drop. -/
def paginate (ms : List MatchRec) (page size : Int) :
    List MatchRec × Int × Int × Int :=
  let sz := if size ≤ 0 then pageSize else size
  let tp0 := ((ms.length : Int) + sz - 1) / sz
  let totalPages := if tp0 = 0 then 1 else tp0
  let p1 := if page < 1 then 1 else page
  let p := if p1 > totalPages then totalPages else p1
  let start0 := (p - 1) * sz
  let end0 := start0 + sz
  let start := if start0 > (ms.length : Int) then (ms.length : Int) else start0
  let e := if end0 > (ms.length : Int) then (ms.length : Int) else end0
  let paged := (ms.take e.toNat).drop start.toNat
  let prev := if p > 1 then p - 1 else 0
  let next := if p < totalPages then p + 1 else 0
  (paged, totalPages, prev, next)

/-- The normalized form `strings.Join (strings.Fields s) " "` used by
`DetailHandler`'s fallback comparison; `strings.EqualFold` is modelled as
equality after `toLower`. -/
def normTitle (s : Str) : Str := toLower (joinStrs [' '] (fields s))

/-- The lookup loop of `DetailHandler`: scan records in order; a record is
taken if its title matches exactly, or else if it matches under the
normalized comparison; `none` models the `http.NotFound` outcome. -/
def findMatch (title : Str) : List MatchRec → Option MatchRec
  | [] => none
  | m :: rest =>
    if m.Title = title then some m
    else if normTitle m.Title = normTitle title then some m
    else findMatch title rest

/-- The list of titles `getFavorites` extracts from a cookie value: split on
'|', trim each piece, drop empty pieces. -/
def decodeList (v : Str) : List Str :=
  ((splitOnChar '|' v).map trim).filter (fun t => t ≠ [])

/-- `getFavorites`' resulting set (`map[string]bool` with only `true` values
is a finite set of titles). -/
def decodeFavs (v : Str) : Finset Str := (decodeList v).toFinset

/-- `getFavorites`: a missing cookie yields the empty set, otherwise the
cookie value is decoded. -/
def getFavorites (cookie : Option Str) : Finset Str :=
  match cookie with
  | none => ∅
  | some v => decodeFavs v

/-- `saveFavorites`' cookie value: sort the titles (`sort.Strings`, modelled
by the lexicographic order on `Str`) and join with '|'. -/
def encodeFavs (favs : Finset Str) : Str :=
  joinStrs ['|'] (favs.sort (· ≤ ·))

/-- The toggle step of `ToggleFavoriteHandler`: delete the title if present,
insert it otherwise. -/
def toggleFav (favs : Finset Str) (title : Str) : Finset Str :=
  if title ∈ favs then favs.erase title else insert title favs

/-- `ToggleFavoriteHandler`'s favorites logic: trim the `title` query
parameter, answer 400 (`none`) when it is empty, else toggle. -/
def toggleHandler (titleArg : Str) (favs : Finset Str) : Option (Finset Str) :=
  let t := trim titleArg
  if t = [] then none else some (toggleFav favs t)

/-- Slice cells, for the aliasing claim: a Go slice of `Match` is a list of
cell addresses into a store. -/
abbrev Addr := Nat

/-- The heap of `Match` cells. -/
abbrev Store := Addr → MatchRec

/-- Write one cell. -/
def setAddr (σ : Store) (a : Addr) (v : MatchRec) : Store :=
  fun x => if x = a then v else σ x

/-- Write a batch of cells in order. -/
def writeAll : Store → List (Addr × MatchRec) → Store
  | σ, [] => σ
  | σ, (a, v) :: rest => writeAll (setAddr σ a v) rest

/-- `cloneMatches` at the cell level: `make` allocates the fresh cells
`base, base+1, …` and `copy` fills them with the source cells' values. -/
def cloneSlice (σ : Store) (src : List Addr) (base : Addr) : Store × List Addr :=
  let dst := (List.range src.length).map (base + ·)
  (writeAll σ (dst.zip (src.map σ)), dst)

/-- The annotation loop of `loadMatchesWithFavorites`:
`matches[i].IsFavorite = favs[matches[i].Title]` for each cell of the slice. -/
def annotateFavs : Store → List Addr → Finset Str → Store
  | σ, [], _ => σ
  | σ, a :: rest, favs =>
    annotateFavs (setAddr σ a { σ a with IsFavorite := decide ((σ a).Title ∈ favs) })
      rest favs

/-- The filter as the specification words it (for comparison with
`filterMatches`): keep exactly the records whose title or raw competition
contains the text filter case-insensitively AND whose derived category
contains the category filter case-insensitively; an empty filter string is a
pass-through. -/
def filterMatchesSpec (ms : List MatchRec) (query category : Str) : List MatchRec :=
  ms.filter fun m =>
    (query.isEmpty || goContains (toLower m.Title) (toLower query) ||
      goContains (toLower m.Competition) (toLower query)) &&
    (category.isEmpty || goContains (toLower m.Category) (toLower category))

/-- A record whose raw competition string contains no ':'. -/
def frRec : MatchRec := { Competition := "FRIENDLY".data }

/-- A record whose derived category is empty. -/
def emptyCatRec : MatchRec := {}

/-- A stored record whose title matches the request only after case folding. -/
def storedLoose : MatchRec := { Title := "team a vs team b".data }

/-- A stored record whose title equals the requested title exactly. -/
def storedExact : MatchRec := { Title := "Team A vs Team B".data }

/-- The requested detail-view title. -/
def reqTitle : Str := "Team A vs Team B".data

/-- Total page count as the claim words it: `max 1 (ceil (count / size))`,
with the ceiling of the division of nonnegative integers written in its
`(count + size - 1) / size` form. -/
def specTotalPages (count size : Int) : Int := max 1 ((count + size - 1) / size)

/-- The effective page as the claim words it: the requested page clamped
into `[1, totalPages]`. -/
def specEffPage (page totalPages : Int) : Int := min (max page 1) totalPages

/-! ### Supporting lemmas -/

lemma takeWhile_no_colon (s : Str) (h : ':' ∉ s) :
    (s.takeWhile fun c => c != ':') = s := by
  induction s with
  | nil => rfl
  | cons c cs ih =>
    have hc : (c != ':') = true := by
      simp only [bne_iff_ne, ne_eq]
      exact fun e => h (e ▸ List.mem_cons_self c cs)
    have hcs : ':' ∉ cs := fun hm => h (List.mem_cons_of_mem _ hm)
    rw [List.takeWhile_cons, hc]
    simp only [if_true]
    rw [ih hcs]

lemma takeWhile_append_colon (pre suf : Str) (h : ':' ∉ pre) :
    ((pre ++ ':' :: suf).takeWhile fun c => c != ':') = pre := by
  induction pre with
  | nil =>
    rw [List.nil_append, List.takeWhile_cons]
    simp
  | cons c cs ih =>
    have hc : (c != ':') = true := by
      simp only [bne_iff_ne, ne_eq]
      exact fun e => h (e ▸ List.mem_cons_self c cs)
    have hcs : ':' ∉ cs := fun hm => h (List.mem_cons_of_mem _ hm)
    rw [List.cons_append, List.takeWhile_cons, hc]
    simp only [if_true]
    rw [ih hcs]

lemma insertByDateDesc_perm (m : MatchRec) (l : List MatchRec) :
    List.Perm (insertByDateDesc m l) (m :: l) := by
  induction l with
  | nil => rfl
  | cons x xs ih =>
    cases h : strLt x.DateRaw m.DateRaw
    · simp only [insertByDateDesc, h, Bool.false_eq_true, if_false]
      exact (ih.cons x).trans (List.Perm.swap m x xs)
    · simp [insertByDateDesc, h]

lemma sortByDateDesc_perm (l : List MatchRec) : List.Perm (sortByDateDesc l) l := by
  induction l with
  | nil => rfl
  | cons m ms ih => exact (insertByDateDesc_perm m _).trans (ih.cons m)

lemma mem_normalizeMatches {df : Str → Option Str} {l : List MatchRec} {m' : MatchRec}
    (h : m' ∈ normalizeMatches df l) : ∃ m ∈ l, m' = normalizeOne df m := by
  have hp := (sortByDateDesc_perm (l.map (normalizeOne df))).mem_iff.mp h
  obtain ⟨m, hm, he⟩ := List.mem_map.mp hp
  exact ⟨m, hm, he.symm⟩

lemma toLower_isEmpty (s : Str) : (toLower s).isEmpty = s.isEmpty := by
  cases s <;> rfl

lemma filterLoop_eq_filter (q c : Str) (l : List MatchRec) :
    filterLoop q c l = l.filter fun m =>
      (q.isEmpty || goContains (toLower m.Title) q ||
        goContains (toLower m.Competition) q) &&
      (c.isEmpty || m.Category.isEmpty || goContains m.Category c) := by
  induction l with
  | nil => rfl
  | cons m rest ih =>
    simp only [filterLoop, List.filter_cons, ih]
    cases hq : q.isEmpty <;> cases h1 : goContains (toLower m.Title) q <;>
      cases h2 : goContains (toLower m.Competition) q <;>
      cases hc : c.isEmpty <;> cases h3 : m.Category.isEmpty <;>
      cases h4 : goContains m.Category c <;> simp

lemma findMatch_eq_find (title : Str) (l : List MatchRec) :
    findMatch title l =
      l.find? fun m => m.Title == title || normTitle m.Title == normTitle title := by
  induction l with
  | nil => rfl
  | cons m rest ih =>
    simp only [findMatch]
    by_cases h1 : m.Title = title
    · rw [List.find?_cons_of_pos _ (by simp [h1])]
      simp [h1]
    · by_cases h2 : normTitle m.Title = normTitle title
      · rw [List.find?_cons_of_pos _ (by simp [h2])]
        simp [h1, h2]
      · rw [List.find?_cons_of_neg _ (by simp [h1, h2])]
        simp [h1, h2, ih]

lemma cloneMatches_eq (l : List MatchRec) : cloneMatches l = l := List.ofFn_get l

lemma normalizeMatches_length (df : Str → Option Str) (l : List MatchRec) :
    (normalizeMatches df l).length = l.length := by
  unfold normalizeMatches
  rw [(sortByDateDesc_perm _).length_eq, List.length_map]

lemma normalizeMatches_ne_nil {df : Str → Option Str} {l : List MatchRec}
    (h : l ≠ []) : normalizeMatches df l ≠ [] := by
  intro e
  apply h
  have := normalizeMatches_length df l
  rw [e] at this
  exact List.eq_nil_of_length_eq_zero this.symm

lemma fetchMatches_fresh (df : Str → Option Str) (now : Int)
    (up : Except GoError (List MatchRec)) (st : CacheState)
    (h1 : now - st.cachedAt < cacheTTL) (h2 : st.cachedMatch ≠ []) :
    fetchMatches df now up st = ⟨.ok st.cachedMatch, st, false⟩ := by
  unfold fetchMatches
  rw [if_pos ⟨h1, h2⟩, cloneMatches_eq]

lemma fetchMatches_stale_error (df : Str → Option Str) (now : Int) (e : GoError)
    (st : CacheState)
    (h : ¬ (now - st.cachedAt < cacheTTL ∧ st.cachedMatch ≠ [])) :
    fetchMatches df now (.error e) st = ⟨.error e, st, true⟩ := by
  unfold fetchMatches
  rw [if_neg h]

lemma fetchMatches_stale_ok (df : Str → Option Str) (now : Int)
    (resp : List MatchRec) (st : CacheState)
    (h : ¬ (now - st.cachedAt < cacheTTL ∧ st.cachedMatch ≠ [])) :
    fetchMatches df now (.ok resp) st =
      ⟨.ok (normalizeMatches df resp), ⟨now, normalizeMatches df resp⟩, true⟩ := by
  unfold fetchMatches
  rw [if_neg h]
  simp [cloneMatches_eq]

lemma runFetches_fresh (df : Str → Option Str) (t₀ : Int) (ms : List MatchRec)
    (hne : ms ≠ []) (calls : List (Int × Except GoError (List MatchRec)))
    (hcalls : ∀ p ∈ calls, p.1 - t₀ < cacheTTL) :
    runFetches df calls ⟨t₀, ms⟩ =
      (calls.map fun _ => Except.ok ms, ⟨t₀, ms⟩, 0) := by
  induction calls with
  | nil => rfl
  | cons p rest ih =>
    obtain ⟨t, up⟩ := p
    have h1 : t - t₀ < cacheTTL := hcalls (t, up) (List.mem_cons_self _ _)
    simp only [runFetches, fetchMatches_fresh df t up ⟨t₀, ms⟩ h1 hne,
      ih fun q hq => hcalls q (List.mem_cons_of_mem _ hq), List.map]
    rfl

lemma splitOnChar_ne_nil (sep : Char) (s : Str) : splitOnChar sep s ≠ [] := by
  induction s with
  | nil => simp [splitOnChar]
  | cons c rest ih =>
    simp only [splitOnChar]
    by_cases h : c = sep
    · simp [h]
    · rw [if_neg h]
      cases hsp : splitOnChar sep rest with
      | nil => simp
      | cons p ps => simp

lemma sep_not_mem_splitOnChar (sep : Char) (s : Str) :
    ∀ p ∈ splitOnChar sep s, sep ∉ p := by
  induction s with
  | nil =>
    intro p hp
    simp only [splitOnChar, List.mem_singleton] at hp
    simp [hp]
  | cons c rest ih =>
    intro p hp
    simp only [splitOnChar] at hp
    by_cases h : c = sep
    · rw [if_pos h] at hp
      rcases List.mem_cons.mp hp with h' | h'
      · simp [h']
      · exact ih p h'
    · rw [if_neg h] at hp
      cases hsp : splitOnChar sep rest with
      | nil => exact absurd hsp (splitOnChar_ne_nil sep rest)
      | cons q qs =>
        rw [hsp] at hp
        rcases List.mem_cons.mp hp with h' | h'
        · subst h'
          intro hmem
          rcases List.mem_cons.mp hmem with e | e
          · exact h e.symm
          · exact ih q (hsp ▸ List.mem_cons_self q qs) e
        · exact ih p (hsp ▸ List.mem_cons_of_mem q h')

lemma splitOnChar_no_sep (sep : Char) (p : Str) (h : sep ∉ p) :
    splitOnChar sep p = [p] := by
  induction p with
  | nil => rfl
  | cons c cs ih =>
    have hc : c ≠ sep := fun e => h (e ▸ List.mem_cons_self c cs)
    have hcs : sep ∉ cs := fun hm => h (List.mem_cons_of_mem _ hm)
    simp only [splitOnChar]
    rw [if_neg hc, ih hcs]

lemma splitOnChar_append (sep : Char) (p t : Str) (h : sep ∉ p) :
    splitOnChar sep (p ++ sep :: t) = p :: splitOnChar sep t := by
  induction p with
  | nil => simp [splitOnChar]
  | cons c cs ih =>
    have hc : c ≠ sep := fun e => h (e ▸ List.mem_cons_self c cs)
    have hcs : sep ∉ cs := fun hm => h (List.mem_cons_of_mem _ hm)
    rw [List.cons_append]
    simp only [splitOnChar, List.append_eq]
    rw [if_neg hc, ih hcs]

lemma splitOnChar_join (sep : Char) (parts : List Str) (hne : parts ≠ [])
    (h : ∀ p ∈ parts, sep ∉ p) :
    splitOnChar sep (joinStrs [sep] parts) = parts := by
  induction parts with
  | nil => exact absurd rfl hne
  | cons p ps ih =>
    cases ps with
    | nil => exact splitOnChar_no_sep sep p (h p (List.mem_cons_self p []))
    | cons q qs =>
      have hjoin : joinStrs [sep] (p :: q :: qs) =
          p ++ sep :: joinStrs [sep] (q :: qs) := by
        simp [joinStrs]
      rw [hjoin,
        splitOnChar_append sep p _ (h p (List.mem_cons_self p _)),
        ih (by simp) fun r hr => h r (List.mem_cons_of_mem _ hr)]

lemma mem_of_mem_dropWhile {α : Type} {p : α → Bool} {l : List α} {c : α}
    (h : c ∈ l.dropWhile p) : c ∈ l := by
  induction l with
  | nil => simp [List.dropWhile] at h
  | cons a as ih =>
    rw [List.dropWhile_cons] at h
    by_cases hp : p a = true
    · rw [if_pos hp] at h
      exact List.mem_cons_of_mem _ (ih h)
    · rw [if_neg hp] at h
      exact h

lemma dropWhile_eq_self_of_head {α : Type} {p : α → Bool} {l : List α}
    (h : ∀ c, l.head? = some c → p c = false) : l.dropWhile p = l := by
  cases l with
  | nil => rfl
  | cons a as =>
    rw [List.dropWhile_cons, h a rfl]
    simp

lemma head?_dropWhile_not {α : Type} {p : α → Bool} (l : List α) (c : α)
    (h : (l.dropWhile p).head? = some c) : p c = false := by
  induction l with
  | nil => simp [List.dropWhile] at h
  | cons a as ih =>
    rw [List.dropWhile_cons] at h
    by_cases hp : p a = true
    · rw [if_pos hp] at h
      exact ih h
    · rw [if_neg hp] at h
      simp only [List.head?_cons, Option.some.injEq] at h
      subst h
      exact Bool.eq_false_iff.mpr hp

lemma getLast?_dropWhile {α : Type} {p : α → Bool} (l : List α)
    (h : l.dropWhile p ≠ []) : (l.dropWhile p).getLast? = l.getLast? := by
  induction l with
  | nil => simp [List.dropWhile] at h
  | cons a as ih =>
    by_cases hp : p a = true
    · rw [List.dropWhile_cons, if_pos hp] at h ⊢
      rw [ih h]
      have hne : as ≠ [] := by
        intro e
        rw [e] at h
        simp [List.dropWhile] at h
      cases as with
      | nil => exact absurd rfl hne
      | cons b bs => rw [List.getLast?_cons_cons]
    · rw [List.dropWhile_cons, if_neg hp]

lemma trim_head_not_ws (s : Str) (c : Char) (h : (trim s).head? = some c) :
    c.isWhitespace = false := by
  unfold trim at h
  rw [List.head?_reverse] at h
  have hne : (List.dropWhile Char.isWhitespace
      (List.dropWhile Char.isWhitespace s).reverse) ≠ [] := by
    intro e
    rw [e] at h
    simp at h
  rw [getLast?_dropWhile _ hne, List.getLast?_reverse] at h
  exact head?_dropWhile_not _ _ h

lemma trim_getLast_not_ws (s : Str) (c : Char) (h : (trim s).getLast? = some c) :
    c.isWhitespace = false := by
  unfold trim at h
  rw [List.getLast?_reverse] at h
  exact head?_dropWhile_not _ _ h

lemma trim_eq_self (s : Str)
    (h1 : ∀ c, s.head? = some c → c.isWhitespace = false)
    (h2 : ∀ c, s.getLast? = some c → c.isWhitespace = false) :
    trim s = s := by
  unfold trim
  rw [dropWhile_eq_self_of_head h1]
  rw [dropWhile_eq_self_of_head fun c hc => h2 c (by rwa [List.head?_reverse] at hc)]
  exact List.reverse_reverse s

lemma trim_trim (s : Str) : trim (trim s) = trim s :=
  trim_eq_self _ (trim_head_not_ws s) (trim_getLast_not_ws s)

lemma mem_trim {s : Str} {c : Char} (h : c ∈ trim s) : c ∈ s := by
  unfold trim at h
  rw [List.mem_reverse] at h
  have h2 := mem_of_mem_dropWhile h
  rw [List.mem_reverse] at h2
  exact mem_of_mem_dropWhile h2

lemma decodeFavs_mem {v t : Str} (h : t ∈ decodeFavs v) :
    t ≠ [] ∧ trim t = t ∧ '|' ∉ t := by
  rw [decodeFavs, List.mem_toFinset, decodeList, List.mem_filter] at h
  obtain ⟨hmap, hne⟩ := h
  obtain ⟨u, hu, rfl⟩ := List.mem_map.mp hmap
  refine ⟨by simpa using hne, trim_trim u, fun hc => ?_⟩
  exact sep_not_mem_splitOnChar '|' v u hu (mem_trim hc)

lemma decodeFavs_encodeFavs (S : Finset Str)
    (h : ∀ t ∈ S, t ≠ [] ∧ trim t = t ∧ '|' ∉ t) :
    decodeFavs (encodeFavs S) = S := by
  by_cases hS : S = ∅
  · subst hS
    rw [encodeFavs, Finset.sort_empty]
    rfl
  · have hsort_ne : S.sort (· ≤ ·) ≠ [] := by
      intro e
      apply hS
      rw [← Finset.sort_toFinset (· ≤ ·) S, e]
      rfl
    unfold decodeFavs decodeList encodeFavs
    rw [splitOnChar_join '|' _ hsort_ne
      fun p hp => (h p ((Finset.mem_sort _).mp hp)).2.2]
    have hmap : List.map trim (S.sort (· ≤ ·)) = S.sort (· ≤ ·) := by
      conv_rhs => rw [← List.map_id (S.sort (· ≤ ·))]
      exact List.map_congr_left fun a ha => (h a ((Finset.mem_sort _).mp ha)).2.1
    have hfil : List.filter (fun t => t ≠ []) (S.sort (· ≤ ·)) = S.sort (· ≤ ·) :=
      List.filter_eq_self.mpr fun a ha => by
        simp [(h a ((Finset.mem_sort _).mp ha)).1]
    rw [hmap, hfil, Finset.sort_toFinset]

/-! ### Claim theorems -/

/-- C1 counterexample: a successful upstream fetch that returns ZERO records
does not make the cache fresh — a second call one second later (well within
the 2-minute TTL) issues another upstream call, contradicting the claim's
"regardless of how many records it returned". -/
theorem fetchMatches_ttl_zero_records :
    (fetchMatches (fun _ => none) 0 (.ok []) ⟨-1000000, []⟩).result = .ok [] ∧
    (fetchMatches (fun _ => none) 0 (.ok []) ⟨-1000000, []⟩).upstreamCalled = true ∧
    (1 : Int) - 0 < cacheTTL ∧
    (fetchMatches (fun _ => none) 1 (.ok [])
      (fetchMatches (fun _ => none) 0 (.ok []) ⟨-1000000, []⟩).state).upstreamCalled
      = true := by decide

/-- C1 (amended): after an upstream fetch that succeeded with at least one
record, every sequence of calls within the TTL issues no upstream call,
returns the cached snapshot, and leaves the cache state unchanged; once the
TTL has elapsed, the next demand issues exactly one new upstream call.  (A
successful fetch returning zero records is excluded: the code also requires
`len(cachedMatch) > 0` for freshness, see the counterexample.) -/
theorem fetchMatches_ttl_corrected (df : Str → Option Str) (t₀ : Int)
    (st₀ : CacheState) (resp : List MatchRec) (hne : resp ≠ [])
    (hwent : (fetchMatches df t₀ (.ok resp) st₀).upstreamCalled = true)
    (calls : List (Int × Except GoError (List MatchRec)))
    (hcalls : ∀ p ∈ calls, p.1 - t₀ < cacheTTL)
    (t : Int) (up : Except GoError (List MatchRec))
    (helapsed : cacheTTL ≤ t - t₀) :
    (runFetches df calls (fetchMatches df t₀ (.ok resp) st₀).state).2.2 = 0 ∧
    (∀ res ∈ (runFetches df calls (fetchMatches df t₀ (.ok resp) st₀).state).1,
      res = .ok (normalizeMatches df resp)) ∧
    (runFetches df calls (fetchMatches df t₀ (.ok resp) st₀).state).2.1 =
      (fetchMatches df t₀ (.ok resp) st₀).state ∧
    (fetchMatches df t up
      (fetchMatches df t₀ (.ok resp) st₀).state).upstreamCalled = true := by
  have hstale : ¬ (t₀ - st₀.cachedAt < cacheTTL ∧ st₀.cachedMatch ≠ []) := by
    intro hcond
    rw [fetchMatches_fresh df t₀ _ st₀ hcond.1 hcond.2] at hwent
    exact Bool.false_ne_true hwent
  rw [fetchMatches_stale_ok df t₀ resp st₀ hstale]
  have hmne : normalizeMatches df resp ≠ [] := normalizeMatches_ne_nil hne
  rw [runFetches_fresh df t₀ _ hmne calls hcalls]
  refine ⟨rfl, ?_, rfl, ?_⟩
  · intro res hres
    obtain ⟨a, -, ha⟩ := List.mem_map.mp hres
    exact ha.symm
  · unfold fetchMatches
    rw [if_neg fun hcond => absurd hcond.1 (not_lt.mpr helapsed)]
    cases up <;> rfl

/-- Witness for `fetchMatches_ttl_corrected` at concrete inputs. -/
theorem fetchMatches_ttl_corrected_witness :
    (runFetches (fun _ => none) [(10, .error .upstreamUnreachable)]
      (fetchMatches (fun _ => none) 0 (.ok [{}]) ⟨-1000000, []⟩).state).2.2 = 0 ∧
    (∀ res ∈ (runFetches (fun _ => none) [(10, .error .upstreamUnreachable)]
      (fetchMatches (fun _ => none) 0 (.ok [{}]) ⟨-1000000, []⟩).state).1,
      res = .ok (normalizeMatches (fun _ => none) [{}])) ∧
    (runFetches (fun _ => none) [(10, .error .upstreamUnreachable)]
      (fetchMatches (fun _ => none) 0 (.ok [{}]) ⟨-1000000, []⟩).state).2.1 =
      (fetchMatches (fun _ => none) 0 (.ok [{}]) ⟨-1000000, []⟩).state ∧
    (fetchMatches (fun _ => none) 200 (.ok [])
      (fetchMatches (fun _ => none) 0 (.ok [{}])
        ⟨-1000000, []⟩).state).upstreamCalled = true :=
  fetchMatches_ttl_corrected (fun _ => none) 0 ⟨-1000000, []⟩ [{}] (by decide)
    (by decide) [(10, .error .upstreamUnreachable)] (by decide) 200 (.ok [])
    (by decide)

/-- C7: when the cache is stale or empty and the upstream fetch or decode
fails, the error is propagated to the caller (no stale snapshot is served),
the cache state is unchanged by the failed attempt, and a subsequent call
attempts a fresh fetch. -/
theorem fetch_error_propagation (df : Str → Option Str) (now t : Int)
    (st : CacheState) (e : GoError) (up : Except GoError (List MatchRec))
    (hstale : ¬ (now - st.cachedAt < cacheTTL ∧ st.cachedMatch ≠ []))
    (hlater : now ≤ t) :
    fetchMatches df now (.error e) st = ⟨.error e, st, true⟩ ∧
    (fetchMatches df t up st).upstreamCalled = true := by
  refine ⟨fetchMatches_stale_error df now e st hstale, ?_⟩
  have hstale' : ¬ (t - st.cachedAt < cacheTTL ∧ st.cachedMatch ≠ []) := by
    intro hcond
    exact hstale ⟨lt_of_le_of_lt (by omega) hcond.1, hcond.2⟩
  unfold fetchMatches
  rw [if_neg hstale']
  cases up <;> rfl

/-- Witness for `fetch_error_propagation` at concrete inputs. -/
theorem fetch_error_propagation_witness :
    fetchMatches (fun _ => none) 0 (.error .upstreamMalformed) ⟨-1000000, []⟩ =
      ⟨.error .upstreamMalformed, ⟨-1000000, []⟩, true⟩ ∧
    (fetchMatches (fun _ => none) 5 (.ok [])
      ⟨-1000000, []⟩).upstreamCalled = true :=
  fetch_error_propagation (fun _ => none) 0 5 ⟨-1000000, []⟩ .upstreamMalformed
    (.ok []) (by decide) (by decide)

/-- C9 counterexample: two serialized calls on an empty cache whose upstream
fetches both fail issue TWO upstream calls, not the claim's "exactly one";
each caller retries the upstream on its own. -/
theorem duplicate_upstream_on_error :
    (⟨-1000000, []⟩ : CacheState).cachedMatch = [] ∧
    (runFetches (fun _ => none)
      [(0, .error .upstreamUnreachable), (0, .error .upstreamUnreachable)]
      ⟨-1000000, []⟩).2.2 = 2 := by decide

/-- C9 (amended): the mutex serializes the N concurrent calls; when the cache
is stale or empty and the first caller's upstream fetch succeeds with at
least one record, exactly one upstream call is issued and every caller
receives the same resulting snapshot.  (When the upstream fetch fails, each
caller issues its own upstream call — see the counterexample.) -/
theorem single_refresh_serialized (df : Str → Option Str) (t₀ : Int)
    (st₀ : CacheState) (resp : List MatchRec) (hne : resp ≠ [])
    (hstale : ¬ (t₀ - st₀.cachedAt < cacheTTL ∧ st₀.cachedMatch ≠ []))
    (rest : List (Int × Except GoError (List MatchRec)))
    (hrest : ∀ p ∈ rest, p.1 - t₀ < cacheTTL) :
    (runFetches df ((t₀, .ok resp) :: rest) st₀).2.2 = 1 ∧
    ∀ res ∈ (runFetches df ((t₀, .ok resp) :: rest) st₀).1,
      res = .ok (normalizeMatches df resp) := by
  have hone := fetchMatches_stale_ok df t₀ resp st₀ hstale
  simp only [runFetches, hone]
  rw [runFetches_fresh df t₀ _ (normalizeMatches_ne_nil hne) rest hrest]
  refine ⟨rfl, ?_⟩
  intro res hres
  rcases List.mem_cons.mp hres with h | h
  · exact h
  · obtain ⟨a, -, ha⟩ := List.mem_map.mp h
    exact ha.symm

/-- Witness for `single_refresh_serialized` at concrete inputs. -/
theorem single_refresh_serialized_witness :
    (runFetches (fun _ => none) [(0, .ok [{}]), (1, .ok []), (2, .error .upstreamMalformed)]
      ⟨-1000000, []⟩).2.2 = 1 ∧
    ∀ res ∈ (runFetches (fun _ => none)
      [(0, .ok [{}]), (1, .ok []), (2, .error .upstreamMalformed)] ⟨-1000000, []⟩).1,
      res = .ok (normalizeMatches (fun _ => none) [{}]) :=
  single_refresh_serialized (fun _ => none) 0 ⟨-1000000, []⟩ [{}] (by decide)
    (by decide) [(1, .ok []), (2, .error .upstreamMalformed)] (by decide)

/-- C3 counterexample: with an empty text filter and category filter "x", the
code keeps a record whose derived category is empty, while the claim
("returns exactly the records that … contain y case-insensitively in the
derived category") requires it to be dropped. -/
theorem filterMatches_empty_category_kept :
    filterMatches [emptyCatRec] [] ['x'] = [emptyCatRec] ∧
    filterMatchesSpec [emptyCatRec] [] ['x'] = [] := by decide

/-- C3 (amended): `filterMatches` keeps exactly the records that pass the
text filter (case-insensitive substring of title or raw competition; empty
text filter passes everything) AND the category filter, where the category
filter passes records whose derived category is empty unconditionally and
otherwise requires the lowercased filter to occur in the derived category. -/
theorem filterMatches_filter_corrected (ms : List MatchRec) (query category : Str) :
    filterMatches ms query category = ms.filter fun m =>
      (query.isEmpty || goContains (toLower m.Title) (toLower query) ||
        goContains (toLower m.Competition) (toLower query)) &&
      (category.isEmpty || m.Category.isEmpty ||
        goContains m.Category (toLower category)) := by
  unfold filterMatches
  cases hq : query.isEmpty <;> cases hc : category.isEmpty
  · rw [if_neg (by simp [hq, hc]), filterLoop_eq_filter]
    simp only [toLower_isEmpty, hq, hc]
  · rw [if_neg (by simp [hq, hc]), filterLoop_eq_filter]
    simp only [toLower_isEmpty, hq, hc]
  · rw [if_neg (by simp [hq, hc]), filterLoop_eq_filter]
    simp only [toLower_isEmpty, hq, hc]
  · rw [if_pos (by simp [hq, hc])]
    symm
    rw [List.filter_eq_self]
    intro m _
    simp [hq, hc]

/-- C4 counterexample: the requested title matches the second stored record
exactly, yet the lookup returns the first record, which matches only under
the case-folded comparison — the claim's "exact match first over the whole
list" priority does not hold. -/
theorem findMatch_prefers_earlier_normalized :
    storedExact.Title = reqTitle ∧
    storedLoose.Title ≠ reqTitle ∧
    findMatch reqTitle [storedLoose, storedExact] = some storedLoose := by decide

/-- C4 (amended): the lookup scans the records in order and returns the first
record whose title matches the requested title exactly or under the
normalized (case-folded, whitespace-collapsed) comparison; exact matching has
priority only within a single record's test, and the lookup fails with
`NotFound` (`none`) exactly when no record matches either way. -/
theorem findMatch_first_flexible (title : Str) (l : List MatchRec) :
    findMatch title l =
      (l.find? fun m => m.Title == title || normTitle m.Title == normTitle title) ∧
    (findMatch title l = none ↔
      ∀ m ∈ l, m.Title ≠ title ∧ normTitle m.Title ≠ normTitle title) := by
  refine ⟨findMatch_eq_find title l, ?_⟩
  rw [findMatch_eq_find title l, List.find?_eq_none]
  constructor
  · intro h m hm
    have := h m hm
    simp only [Bool.or_eq_true, beq_iff_eq] at this
    exact ⟨fun e => this (Or.inl e), fun e => this (Or.inr e)⟩
  · intro h m hm
    simp only [Bool.or_eq_true, beq_iff_eq]
    rintro (e | e)
    · exact (h m hm).1 e
    · exact (h m hm).2 e

/-- C6 counterexample: a competition string without ':' ("FRIENDLY") derives
the lowercased whole string "friendly", not the empty category the claim
states. -/
theorem category_nonempty_without_colon :
    ':' ∉ frRec.Competition ∧
    (normalizeOne (fun _ => none) frRec).Category = "friendly".data ∧
    (normalizeOne (fun _ => none) frRec).Category ≠ [] := by decide

/-- C6 (amended): every record of `normalizeMatches` is the normalization of
some input record; when the raw competition string contains no ':', the
derived category is the lowercased, trimmed WHOLE string; when it contains
':', it is the lowercased, trimmed substring before the first ':'. -/
theorem category_derivation_corrected (df : Str → Option Str) (l : List MatchRec)
    (m' : MatchRec) (hm : m' ∈ normalizeMatches df l) (m : MatchRec)
    (pre suf : Str) (hpre : ':' ∉ pre) :
    (∃ m₀ ∈ l, m' = normalizeOne df m₀) ∧
    (':' ∉ m.Competition →
      (normalizeOne df m).Category = trim (toLower m.Competition)) ∧
    (m.Competition = pre ++ ':' :: suf →
      (normalizeOne df m).Category = trim (toLower pre)) := by
  refine ⟨mem_normalizeMatches hm, ?_, ?_⟩
  · intro h
    simp only [normalizeOne]
    rw [takeWhile_no_colon _ h]
  · intro h
    simp only [normalizeOne, h]
    rw [takeWhile_append_colon _ _ hpre]

/-- Witness for `category_derivation_corrected` at concrete inputs. -/
theorem category_derivation_corrected_witness :
    (∃ m₀ ∈ [frRec], normalizeOne (fun _ => none) frRec = normalizeOne (fun _ => none) m₀) ∧
    (':' ∉ frRec.Competition →
      (normalizeOne (fun _ => none) frRec).Category = trim (toLower frRec.Competition)) ∧
    (frRec.Competition = [] ++ ':' :: [] →
      (normalizeOne (fun _ => none) frRec).Category = trim (toLower [])) :=
  category_derivation_corrected (fun _ => none) [frRec]
    (normalizeOne (fun _ => none) frRec)
    (by decide) frRec [] [] (by decide)

/-- C2: for every record list and every `size > 0`, `paginate` returns
`totalPages = max 1 (ceil (count / size))`; for every requested page
(including values below 1 and above `totalPages`) the effective page is the
clamp into `[1, totalPages]`, the page slice holds the records at indices
`[(ep-1)*size, min (ep*size) count)`, and `prevPage` (resp. `nextPage`) is 0
exactly when the effective page is 1 (resp. `totalPages`), and otherwise
`ep - 1` (resp. `ep + 1`). -/
theorem paginate_correct (l : List MatchRec) (page size tp ep : Int)
    (hsize : 0 < size) (htp : tp = specTotalPages (l.length : Int) size)
    (hep : ep = specEffPage page tp) :
    1 ≤ ep ∧ ep ≤ tp ∧
    paginate l page size =
      ((l.take (min (ep * size) (l.length : Int)).toNat).drop ((ep - 1) * size).toNat,
        tp,
        if ep = 1 then 0 else ep - 1,
        if ep = tp then 0 else ep + 1) := by
  subst htp hep
  simp only [specTotalPages, specEffPage]
  have hsz : ¬ size ≤ 0 := not_le.mpr hsize
  have hn0 : (0 : Int) ≤ (l.length : Int) := Int.natCast_nonneg _
  have htp0_nonneg : 0 ≤ ((l.length : Int) + size - 1) / size :=
    Int.ediv_nonneg (by omega) (le_of_lt hsize)
  have h1T : 1 ≤ max 1 (((l.length : Int) + size - 1) / size) := le_max_left _ _
  have h1E : 1 ≤ min (max page 1) (max 1 (((l.length : Int) + size - 1) / size)) :=
    le_min (le_max_right page 1) h1T
  have hET : min (max page 1) (max 1 (((l.length : Int) + size - 1) / size)) ≤
      max 1 (((l.length : Int) + size - 1) / size) := min_le_right _ _
  refine ⟨h1E, hET, ?_⟩
  -- the key bound: the clamped start index never exceeds the record count
  have hstart_le :
      (min (max page 1) (max 1 (((l.length : Int) + size - 1) / size)) - 1) * size ≤
        (l.length : Int) := by
    by_cases hn' : (l.length : Int) = 0
    · have hz : ((l.length : Int) + size - 1) / size = 0 :=
        Int.ediv_eq_zero_of_lt (by omega) (by omega)
      have hE1 : min (max page 1) (max 1 (((l.length : Int) + size - 1) / size)) = 1 := by
        rw [hz]
        omega
      rw [hE1, hn']
      simp
    · have htp0_ge1 : 1 ≤ ((l.length : Int) + size - 1) / size := by
        rw [Int.le_ediv_iff_mul_le hsize]
        omega
      have hmul : ((l.length : Int) + size - 1) / size * size ≤
          (l.length : Int) + size - 1 :=
        Int.ediv_mul_le _ (ne_of_gt hsize)
      have hE_le : min (max page 1) (max 1 (((l.length : Int) + size - 1) / size)) ≤
          ((l.length : Int) + size - 1) / size := by omega
      have hstep :
          (min (max page 1) (max 1 (((l.length : Int) + size - 1) / size)) - 1) * size ≤
            (((l.length : Int) + size - 1) / size - 1) * size :=
        mul_le_mul_of_nonneg_right (by omega) (le_of_lt hsize)
      have hring : (((l.length : Int) + size - 1) / size - 1) * size =
          ((l.length : Int) + size - 1) / size * size - size := by ring
      omega
  simp only [paginate]
  have e1 : (if size ≤ 0 then pageSize else size) = size := if_neg hsz
  rw [e1]
  have e2 : (if ((l.length : Int) + size - 1) / size = 0 then 1
        else ((l.length : Int) + size - 1) / size) =
      max 1 (((l.length : Int) + size - 1) / size) := by
    by_cases h : ((l.length : Int) + size - 1) / size = 0
    · rw [if_pos h, h]
      omega
    · rw [if_neg h]
      omega
  rw [e2]
  have e3 : (if page < 1 then 1 else page) = max page 1 := by
    by_cases h : page < 1
    · rw [if_pos h]
      omega
    · rw [if_neg h]
      omega
  rw [e3]
  have e4 : (if max page 1 > max 1 (((l.length : Int) + size - 1) / size)
        then max 1 (((l.length : Int) + size - 1) / size) else max page 1) =
      min (max page 1) (max 1 (((l.length : Int) + size - 1) / size)) := by
    by_cases h : max page 1 > max 1 (((l.length : Int) + size - 1) / size)
    · rw [if_pos h]
      omega
    · rw [if_neg h]
      omega
  rw [e4]
  have e5 : (if (min (max page 1) (max 1 (((l.length : Int) + size - 1) / size)) - 1) * size >
        (l.length : Int) then (l.length : Int)
        else (min (max page 1) (max 1 (((l.length : Int) + size - 1) / size)) - 1) * size) =
      (min (max page 1) (max 1 (((l.length : Int) + size - 1) / size)) - 1) * size :=
    if_neg (not_lt.mpr hstart_le)
  rw [e5]
  have hring2 : (min (max page 1) (max 1 (((l.length : Int) + size - 1) / size)) - 1) * size
        + size =
      min (max page 1) (max 1 (((l.length : Int) + size - 1) / size)) * size := by ring
  rw [hring2]
  have e6 : (if min (max page 1) (max 1 (((l.length : Int) + size - 1) / size)) * size >
        (l.length : Int) then (l.length : Int)
        else min (max page 1) (max 1 (((l.length : Int) + size - 1) / size)) * size) =
      min (min (max page 1) (max 1 (((l.length : Int) + size - 1) / size)) * size)
        (l.length : Int) := by
    by_cases h : min (max page 1) (max 1 (((l.length : Int) + size - 1) / size)) * size >
        (l.length : Int)
    · rw [if_pos h]
      omega
    · rw [if_neg h]
      omega
  rw [e6]
  have e7 : (if min (max page 1) (max 1 (((l.length : Int) + size - 1) / size)) > 1
        then min (max page 1) (max 1 (((l.length : Int) + size - 1) / size)) - 1 else 0) =
      (if min (max page 1) (max 1 (((l.length : Int) + size - 1) / size)) = 1 then 0
        else min (max page 1) (max 1 (((l.length : Int) + size - 1) / size)) - 1) := by
    by_cases h : min (max page 1) (max 1 (((l.length : Int) + size - 1) / size)) = 1
    · rw [if_pos h, if_neg (by omega)]
    · rw [if_neg h, if_pos (by omega)]
  rw [e7]
  have e8 : (if min (max page 1) (max 1 (((l.length : Int) + size - 1) / size)) <
        max 1 (((l.length : Int) + size - 1) / size)
        then min (max page 1) (max 1 (((l.length : Int) + size - 1) / size)) + 1 else 0) =
      (if min (max page 1) (max 1 (((l.length : Int) + size - 1) / size)) =
          max 1 (((l.length : Int) + size - 1) / size) then 0
        else min (max page 1) (max 1 (((l.length : Int) + size - 1) / size)) + 1) := by
    by_cases h : min (max page 1) (max 1 (((l.length : Int) + size - 1) / size)) =
        max 1 (((l.length : Int) + size - 1) / size)
    · rw [if_pos h, if_neg (by omega)]
    · rw [if_neg h, if_pos (by omega)]
  rw [e8]

/-- Witness for `paginate_correct` at concrete inputs (5 records, page size 2,
requested page 99 clamps to the last page 3). -/
theorem paginate_correct_witness :
    1 ≤ (3 : Int) ∧ (3 : Int) ≤ 3 ∧
    paginate (List.replicate 5 {}) 99 2 =
      (((List.replicate 5 ({} : MatchRec)).take
          (min ((3 : Int) * 2) ((List.replicate 5 ({} : MatchRec)).length : Int)).toNat).drop
            (((3 : Int) - 1) * 2).toNat,
        3,
        if (3 : Int) = 1 then 0 else 3 - 1,
        if (3 : Int) = 3 then 0 else 3 + 1) :=
  paginate_correct (List.replicate 5 {}) 99 2 3 3 (by decide) (by decide) (by decide)

/-- C5: toggling the same title twice returns the Favorite Set to its
original content; decode-then-encode is idempotent on every cookie value
(`encode (decode (encode (decode v))) = encode (decode v)`); and the encoded
value depends only on the resulting set, not on the toggle order (toggles of
distinct titles commute). -/
theorem favorites_roundtrip (v : Str) (S : Finset Str) (t u : Str) (hne : t ≠ u) :
    toggleFav (toggleFav S t) t = S ∧
    encodeFavs (decodeFavs (encodeFavs (decodeFavs v))) = encodeFavs (decodeFavs v) ∧
    toggleFav (toggleFav S t) u = toggleFav (toggleFav S u) t := by
  refine ⟨?_, ?_, ?_⟩
  · by_cases h : t ∈ S
    · have e1 : toggleFav S t = S.erase t := by rw [toggleFav, if_pos h]
      rw [e1, toggleFav, if_neg (Finset.not_mem_erase t S)]
      exact Finset.insert_erase h
    · have e1 : toggleFav S t = insert t S := by rw [toggleFav, if_neg h]
      rw [e1, toggleFav, if_pos (Finset.mem_insert_self t S)]
      exact Finset.erase_insert h
  · rw [decodeFavs_encodeFavs _ fun s hs => decodeFavs_mem hs]
  · by_cases ht : t ∈ S <;> by_cases hu : u ∈ S
    · have h1 : u ∈ S.erase t := Finset.mem_erase.mpr ⟨Ne.symm hne, hu⟩
      have h2 : t ∈ S.erase u := Finset.mem_erase.mpr ⟨hne, ht⟩
      have et : toggleFav S t = S.erase t := by rw [toggleFav, if_pos ht]
      have eu : toggleFav S u = S.erase u := by rw [toggleFav, if_pos hu]
      rw [et, eu, toggleFav, if_pos h1, toggleFav, if_pos h2]
      ext x
      simp only [Finset.mem_erase]
      constructor
      · rintro ⟨hxu, hxt, hxS⟩
        exact ⟨hxt, hxu, hxS⟩
      · rintro ⟨hxt, hxu, hxS⟩
        exact ⟨hxu, hxt, hxS⟩
    · have h1 : u ∉ S.erase t := fun hmem => hu (Finset.mem_erase.mp hmem).2
      have h2 : t ∈ insert u S := Finset.mem_insert_of_mem ht
      have et : toggleFav S t = S.erase t := by rw [toggleFav, if_pos ht]
      have eu : toggleFav S u = insert u S := by rw [toggleFav, if_neg hu]
      rw [et, eu, toggleFav, if_neg h1, toggleFav, if_pos h2]
      ext x
      simp only [Finset.mem_insert, Finset.mem_erase]
      constructor
      · rintro (rfl | ⟨hxt, hxS⟩)
        · exact ⟨Ne.symm hne, Or.inl rfl⟩
        · exact ⟨hxt, Or.inr hxS⟩
      · rintro ⟨hxt, rfl | hxS⟩
        · exact Or.inl rfl
        · exact Or.inr ⟨hxt, hxS⟩
    · have h1 : u ∈ insert t S := Finset.mem_insert_of_mem hu
      have h2 : t ∉ S.erase u := fun hmem => ht (Finset.mem_erase.mp hmem).2
      have et : toggleFav S t = insert t S := by rw [toggleFav, if_neg ht]
      have eu : toggleFav S u = S.erase u := by rw [toggleFav, if_pos hu]
      rw [et, eu, toggleFav, if_pos h1, toggleFav, if_neg h2]
      ext x
      simp only [Finset.mem_insert, Finset.mem_erase]
      constructor
      · rintro ⟨hxu, rfl | hxS⟩
        · exact Or.inl rfl
        · exact Or.inr ⟨hxu, hxS⟩
      · rintro (rfl | ⟨hxu, hxS⟩)
        · exact ⟨hne, Or.inl rfl⟩
        · exact ⟨hxu, Or.inr hxS⟩
    · have h1 : u ∉ insert t S := by
        simp only [Finset.mem_insert]
        rintro (rfl | hmem)
        · exact hne rfl
        · exact hu hmem
      have h2 : t ∉ insert u S := by
        simp only [Finset.mem_insert]
        rintro (rfl | hmem)
        · exact hne rfl
        · exact ht hmem
      have et : toggleFav S t = insert t S := by rw [toggleFav, if_neg ht]
      have eu : toggleFav S u = insert u S := by rw [toggleFav, if_neg hu]
      rw [et, eu, toggleFav, if_neg h1, toggleFav, if_neg h2]
      exact (Finset.Insert.comm t u S).symm

/-- Witness for `favorites_roundtrip` at concrete inputs. -/
theorem favorites_roundtrip_witness :
    toggleFav (toggleFav {['b']} ['a']) ['a'] = {['b']} ∧
    encodeFavs (decodeFavs (encodeFavs (decodeFavs ('b' :: '|' :: 'a' :: [])))) =
      encodeFavs (decodeFavs ('b' :: '|' :: 'a' :: [])) ∧
    toggleFav (toggleFav {['b']} ['a']) ['c'] =
      toggleFav (toggleFav {['b']} ['c']) ['a'] :=
  favorites_roundtrip ('b' :: '|' :: 'a' :: []) {['b']} ['a'] ['c'] (by decide)

/-- C10: every decoded Favorite Set contains only non-empty, trimmed titles;
a missing cookie decodes to the empty set; and the toggle handler (which
trims its title argument and rejects an empty result) preserves the
invariant. -/
theorem favorites_wellformed (v : Str) (arg : Str) (S S' : Finset Str)
    (hS : ∀ t ∈ S, t ≠ [] ∧ trim t = t)
    (htog : toggleHandler arg S = some S') :
    (∀ t ∈ decodeFavs v, t ≠ [] ∧ trim t = t) ∧
    getFavorites none = ∅ ∧
    (∀ t ∈ S', t ≠ [] ∧ trim t = t) := by
  refine ⟨fun t ht => ⟨(decodeFavs_mem ht).1, (decodeFavs_mem ht).2.1⟩, rfl, ?_⟩
  rw [toggleHandler] at htog
  by_cases h : trim arg = []
  · rw [if_pos h] at htog
    exact absurd htog (by simp)
  · rw [if_neg h] at htog
    have hS' : toggleFav S (trim arg) = S' := Option.some.inj htog
    subst hS'
    intro t ht
    rw [toggleFav] at ht
    by_cases hmem : trim arg ∈ S
    · rw [if_pos hmem] at ht
      exact hS t (Finset.mem_of_mem_erase ht)
    · rw [if_neg hmem] at ht
      rcases Finset.mem_insert.mp ht with rfl | hts
      · exact ⟨h, trim_trim arg⟩
      · exact hS t hts

/-- Witness for `favorites_wellformed` at concrete inputs. -/
theorem favorites_wellformed_witness :
    (∀ t ∈ decodeFavs (' ' :: 'a' :: '|' :: []), t ≠ [] ∧ trim t = t) ∧
    getFavorites none = ∅ ∧
    (∀ t ∈ ({['b']} : Finset Str), t ≠ [] ∧ trim t = t) :=
  favorites_wellformed (' ' :: 'a' :: '|' :: []) (' ' :: 'b' :: []) ∅ {['b']}
    (by decide) (by decide)

lemma writeAll_not_mem (σ : Store) (pairs : List (Addr × MatchRec)) (a : Addr)
    (h : a ∉ pairs.map Prod.fst) : writeAll σ pairs a = σ a := by
  induction pairs generalizing σ with
  | nil => rfl
  | cons p rest ih =>
    obtain ⟨b, v⟩ := p
    have hb : a ≠ b := by
      intro e
      exact h (e ▸ List.mem_cons_self _ _)
    have hrest : a ∉ rest.map Prod.fst := fun hm => h (List.mem_cons_of_mem _ hm)
    rw [writeAll, ih _ hrest, setAddr, if_neg hb]

lemma annotateFavs_not_mem (σ : Store) (addrs : List Addr) (favs : Finset Str)
    (a : Addr) (h : a ∉ addrs) : annotateFavs σ addrs favs a = σ a := by
  induction addrs generalizing σ with
  | nil => rfl
  | cons b rest ih =>
    have hb : a ≠ b := fun e => h (e ▸ List.mem_cons_self _ _)
    have hrest : a ∉ rest := fun hm => h (List.mem_cons_of_mem _ hm)
    rw [annotateFavs, ih _ hrest, setAddr, if_neg hb]

lemma writeAll_read (σ : Store) (ds : List Addr) (vs : List MatchRec)
    (hnd : ds.Nodup) (hlen : ds.length = vs.length) :
    ds.map (writeAll σ (ds.zip vs)) = vs := by
  induction ds generalizing σ vs with
  | nil =>
    cases vs with
    | nil => rfl
    | cons _ _ => simp at hlen
  | cons d ds ih =>
    cases vs with
    | nil => simp at hlen
    | cons v vs =>
      have hnd' := (List.nodup_cons.mp hnd).2
      have hd : d ∉ ds := (List.nodup_cons.mp hnd).1
      have hlen' : ds.length = vs.length := by simpa using hlen
      have hfst : (ds.zip vs).map Prod.fst = ds :=
        List.map_fst_zip ds vs (le_of_eq hlen')
      rw [List.zip_cons_cons, List.map_cons, writeAll]
      rw [ih (setAddr σ d v) vs hnd' hlen']
      rw [writeAll_not_mem _ _ _ (by rw [hfst]; exact hd), setAddr, if_pos rfl]

/-- C8: `cloneMatches` hands each request a copy — the clone's cells are
fresh (disjoint from the cache's cells), they hold the same record values,
and running the per-request favorite-annotation loop on the clone leaves
every cache cell exactly as it was. -/
theorem clone_isolates_cache (σ : Store) (cache : List Addr) (base : Addr)
    (favs : Finset Str) (hfresh : ∀ a ∈ cache, a < base) :
    (∀ a ∈ cache, a ∉ (cloneSlice σ cache base).2) ∧
    ((cloneSlice σ cache base).2.map (cloneSlice σ cache base).1 = cache.map σ) ∧
    (∀ a ∈ cache, annotateFavs (cloneSlice σ cache base).1
        (cloneSlice σ cache base).2 favs a = σ a) := by
  have h2 : (cloneSlice σ cache base).2 = (List.range cache.length).map (base + ·) := rfl
  have h1 : (cloneSlice σ cache base).1 =
      writeAll σ ((((List.range cache.length).map (base + ·))).zip (cache.map σ)) := rfl
  have hnotin : ∀ a ∈ cache, a ∉ (cloneSlice σ cache base).2 := by
    intro a ha hmem
    rw [h2] at hmem
    obtain ⟨i, -, hi⟩ := List.mem_map.mp hmem
    have hi' : base + i = a := hi
    have hge : base ≤ a := hi' ▸ Nat.le_add_right base i
    exact Nat.not_lt.mpr hge (hfresh a ha)
  have hlen : ((List.range cache.length).map (base + ·)).length = (cache.map σ).length := by
    rw [List.length_map, List.length_range, List.length_map]
  have hnd : ((List.range cache.length).map (base + ·)).Nodup :=
    (List.nodup_range _).map (add_right_injective base)
  refine ⟨hnotin, ?_, ?_⟩
  · rw [h1, h2]
    exact writeAll_read σ _ _ hnd hlen
  · intro a ha
    rw [annotateFavs_not_mem _ _ _ _ (hnotin a ha), h1,
      writeAll_not_mem _ _ _ ?_]
    rw [List.map_fst_zip _ _ (le_of_eq hlen)]
    exact h2 ▸ hnotin a ha

/-- Witness for `clone_isolates_cache` at concrete inputs. -/
theorem clone_isolates_cache_witness :
    (∀ a ∈ [0], a ∉ (cloneSlice (fun _ => {}) [0] 1).2) ∧
    ((cloneSlice (fun _ => {}) [0] 1).2.map (cloneSlice (fun _ => {}) [0] 1).1 =
      [0].map (fun _ => ({} : MatchRec))) ∧
    (∀ a ∈ [0], annotateFavs (cloneSlice (fun _ => {}) [0] 1).1
        (cloneSlice (fun _ => {}) [0] 1).2 ∅ a = (fun _ => ({} : MatchRec)) a) :=
  clone_isolates_cache (fun _ => {}) [0] 1 ∅ (by decide)

end GroupieTracker
